import Mathlib

/-!
Shallow embedding of the VBDiarization diarization pipeline
(src/python/lib/diarization.py together with the classifier interface of
src/python/lib/classifier.py).

Modelling conventions:
* a numpy 2-d array is a list of rows of rationals (`Mat`);
* a python string is a `List Char`;
* the global numpy random state consumed by each `sklearnKMeans(...).fit`
  call is made explicit as a call counter: the clustering dependency is an
  abstract function of the counter, so two clustering calls with different
  counters are unrelated values, exactly like two reseeded sklearn fits;
* the PLDA scorer, the s-norm scorer and the trained classifier live in
  modules that are abstract dependencies of diarization.py, so they are
  universally quantified function parameters;
* fallible python / numpy operations (dict lookup, fancy indexing, argmax
  on an empty array, int parsing, raised exceptions) return `Option` or
  `Except DiarError`.
-/

namespace VBDiar

/-- A numpy 2-d array: list of rows. -/
abbrev Mat := List (List ℚ)

/-- Modelled from the spec (section 3, Embedding): one segment embedding
vector with integer temporal bounds.  The repository module defining the
pickled i-vector objects is not under src. -/
structure Ivec where
  window_start : ℤ
  window_end : ℤ
  data : List ℚ
  deriving DecidableEq

/-- Modelled from the spec (section 3, Embedding Set): a name, an optional
a-priori speaker count and the ordered embeddings.  The ivec-set module is
not under src. -/
structure IvecSet where
  name : List Char
  num_speakers : Option ℤ
  ivecs : List Ivec
  deriving DecidableEq

/-- Modelled from the spec: size() is the count of embeddings of the set. -/
def IvecSet.size (s : IvecSet) : ℕ := s.ivecs.length

/-- Modelled from the spec: get_all() stacks the embedding vectors of the
set into a matrix. -/
def IvecSet.get_all (s : IvecSet) : Mat := s.ivecs.map Ivec.data

/-- The failure modes of diarization.py: its two DiarizationException raise
sites (score line 111, load_ivecs line 82) and the python builtin
exceptions its dict / numpy / int operations can raise. -/
inductive DiarError where
  | speakerCountUnknown
  | malformedManifest
  | keyError
  | indexError
  | valueError
  deriving DecidableEq

/-! ### Python dict with string keys (scores_dict) -/

/-- Lookup in a python dict modelled as an association list. -/
def dictLookup (d : List (List Char × Mat)) (k : List Char) : Option Mat :=
  match d with
  | [] => none
  | (k₀, v₀) :: rest => if k₀ = k then some v₀ else dictLookup rest k

/-- Assignment `d[k] = v` on a python dict: overwrite the binding if the key
is present, otherwise append it. -/
def dictInsert (d : List (List Char × Mat)) (k : List Char) (v : Mat) :
    List (List Char × Mat) :=
  match d with
  | [] => [(k, v)]
  | (k₀, v₀) :: rest =>
      if k₀ = k then (k₀, v) :: rest else (k₀, v₀) :: dictInsert rest k v

/-! ### numpy helpers used by diarization.py -/

/-- Accumulator loop of numpy argmax over a vector of rationals: keeps the
first index attaining the running maximum (only a strictly larger value
updates the current best). -/
def argmaxGo (bi : ℕ) (bv : ℚ) (i : ℕ) : List ℚ → ℕ × ℚ
  | [] => (bi, bv)
  | x :: xs => if bv < x then argmaxGo i x (i + 1) xs else argmaxGo bi bv (i + 1) xs

/-- np.argmax: index of the first occurrence of the maximum; none models the
ValueError numpy raises on an empty array. -/
def argmaxIdx : List ℚ → Option ℕ
  | [] => none
  | x :: xs => some (argmaxGo 0 x 1 xs).1

/-- np.sum(m, axis=0) of a rectangular 2-d array (the code only ever sums
the rectangular probability matrix returned by the classifier). -/
def colSum : List (List ℚ) → List ℚ
  | [] => []
  | [r] => r
  | r :: rs => List.zipWith (· + ·) r (colSum rs)

/-- The index pairs of np.tril_indices(n, -1) in numpy order: row-major over
the strictly-lower triangle, diagonal excluded. -/
def trilPairs (n : ℕ) : List (ℕ × ℕ) :=
  (List.range n).flatMap (fun i => (List.range i).map (fun j => (i, j)))

/-- Fancy indexing m[np.tril_indices(n, -1)]: the strictly-lower-triangular
entries as a flat vector; none models the IndexError raised when an index
pair is out of range for m. -/
def trilStrict (m : Mat) (n : ℕ) : Option (List ℚ) :=
  if (trilPairs n).all
      (fun p => decide (p.1 < m.length) && decide (p.2 < (m.getD p.1 []).length)) then
    some ((trilPairs n).map (fun p => (m.getD p.1 []).getD p.2 0))
  else none

/-- Row i of the transpose of a 2-d array, i.e. column i; none models the
IndexError raised when i is out of range for some row. -/
def matCol (m : Mat) (i : ℕ) : Option (List ℚ) :=
  if m.all (fun r => decide (i < r.length)) then
    some (m.map (fun r => r.getD i 0))
  else none

/-- np.argmax(scores.T[i]): the speaker label assigned to embedding i from
a stored score matrix (diarization.py lines 140 and 169). -/
def assignLabel (m : Mat) (i : ℕ) : Option ℕ := (matCol m i).bind argmaxIdx

/-! ### get_num_speakers (diarization.py lines 202-224) -/

/-- Modelled from the spec (section 4.4): Normalization.get_features turns
the flat vector of strictly-lower-triangular pairwise scores into the
feature vector handed to the classifier; the spec states that the extracted
strictly-lower-triangular entries themselves are that flat feature vector.
The normalization module defining get_features is not under src. -/
def get_features (scores : List ℚ) : List ℚ := scores

/-- The candidate loop of get_num_speakers.  For each candidate count the
embeddings are re-clustered (consuming one step of the global random state,
counted by the length of the accumulated centroid list), the centroids are
scored against themselves with s_norm, and the strictly-lower-triangular
entries of that matrix become the candidate's feature vector. -/
def gnsLoop (cluster : ℕ → ℕ → Mat) (sNorm : Mat → Mat → Mat) :
    List ℕ → List Mat → List (List ℚ) → Option (List Mat × List (List ℚ))
  | [], centroids_list, features => some (centroids_list, features)
  | c :: rest, centroids_list, features =>
      let centroids := cluster centroids_list.length c
      match trilStrict (sNorm centroids centroids) c with
      | none => none
      | some scores =>
          gnsLoop cluster sNorm rest (centroids_list ++ [centroids])
            (features ++ [get_features scores])

/-- Diarization.get_num_speakers: iterate the candidate counts
range(min_speakers, max_speakers + 1); run the classifier in probability
mode on every candidate's feature vector; pick np.argmax of the column-wise
sum of the probability matrix; return that count plus min_speakers together
with the stored centroid set of the winning candidate.  `cluster i c` is
the composite sklearnKMeans-seeded KMeans fit for count c at global random
state i; `test` is the classifier's per-row probability output. -/
def get_num_speakers (cluster : ℕ → ℕ → Mat) (sNorm : Mat → Mat → Mat)
    (test : List ℚ → List ℚ) (min_speakers max_speakers : ℕ) : Option (ℕ × Mat) :=
  match gnsLoop cluster sNorm
      (List.range' min_speakers (max_speakers + 1 - min_speakers)) [] [] with
  | none => none
  | some (centroids_list, features) =>
      match argmaxIdx (colSum (features.map test)) with
      | none => none
      | some idx => (centroids_list.get? idx).map (fun cs => (idx + min_speakers, cs))

/-! ### Python string helpers -/

/-- The whitespace characters recognised by python str.split() / rstrip(). -/
def pyIsSpace (c : Char) : Bool :=
  (c == ' ') || (c == '\t') || (c == '\n') || (c == '\r') ||
    (c == '\x0b') || (c == '\x0c')

/-- python str.rstrip(): drop trailing whitespace. -/
def rstrip (l : List Char) : List Char :=
  (l.reverse.dropWhile pyIsSpace).reverse

/-- Accumulator loop of python str.split() with no separator: split on runs
of whitespace, producing no empty tokens. -/
def pySplitGo (acc : List Char) : List Char → List (List Char)
  | [] => if acc = [] then [] else [acc.reverse]
  | c :: rest =>
      if pyIsSpace c then
        if acc = [] then pySplitGo [] rest else acc.reverse :: pySplitGo [] rest
      else pySplitGo (c :: acc) rest

/-- python str.split() with no separator. -/
def pySplit (l : List Char) : List (List Char) := pySplitGo [] l

/-- Is pat a prefix of l (python str.startswith for the substring search)? -/
def strStarts : List Char → List Char → Bool
  | [], _ => true
  | _ :: _, [] => false
  | p :: ps, c :: cs => (p == c) && strStarts ps cs

/-- python `pat in s`: does l contain pat as a contiguous substring? -/
def strHas (pat : List Char) : List Char → Bool
  | [] => strStarts pat []
  | c :: rest => strStarts pat (c :: rest) || strHas pat rest

/-- Worker of subAll; the counter holds how many characters of a matched
occurrence still have to be skipped, so the recursion is structural in the
scanned list. -/
def subAllGo (pat : List Char) : ℕ → List Char → List Char
  | _, [] => []
  | Nat.succ skip, _ :: rest => subAllGo pat skip rest
  | 0, c :: rest =>
      if pat ≠ [] ∧ strStarts pat (c :: rest) = true then
        subAllGo pat (pat.length - 1) rest
      else c :: subAllGo pat 0 rest

/-- re.sub(pat, '', l) for a literal pattern pat: delete the leftmost
occurrence, continue scanning after it, non-overlapping. -/
def subAll (pat l : List Char) : List Char := subAllGo pat 0 l

/-- Worker of subSlashRest; the flag records being inside a '/.*' match,
deleting characters until the next newline. -/
def subSlashRestGo : Bool → List Char → List Char
  | _, [] => []
  | false, c :: rest =>
      if c = '/' then subSlashRestGo true rest else c :: subSlashRestGo false rest
  | true, c :: rest =>
      if c = '\n' then c :: subSlashRestGo false rest else subSlashRestGo true rest

/-- re.sub('/.*', '', l): at each '/' delete it and everything up to (not
including) the next newline, then continue; `.` does not match newline. -/
def subSlashRest (l : List Char) : List Char := subSlashRestGo false l

/-! ### posixpath (python 2.7 os.path on posix) -/

/-- python path.split('/'): split at every slash, keeping empty pieces. -/
def splitSlash : List Char → List (List Char)
  | [] => [[]]
  | c :: rest =>
      if c = '/' then [] :: splitSlash rest
      else
        match splitSlash rest with
        | [] => [[c]]
        | h :: t => (c :: h) :: t

/-- '/'.join(comps). -/
def joinSlash : List (List Char) → List Char
  | [] => []
  | [x] => x
  | x :: xs => x ++ '/' :: joinSlash xs

/-- The initial-slash count of posixpath.normpath: 1 if the path starts with
'/', upgraded to 2 when it starts with exactly two slashes. -/
def islashes (p : List Char) : ℕ :=
  if p.take 1 = ['/'] then
    if p.take 2 = ['/', '/'] ∧ p.take 3 ≠ ['/', '/', '/'] then 2 else 1
  else 0

/-- The component '..'. -/
def dd : List Char := ['.', '.']

/-- The component loop of posixpath.normpath.  acc is python's new_comps in
reverse (its head is new_comps[-1]): empty and '.' components are dropped;
'..' is appended when the path is relative and new_comps is empty or ends in
'..', pops the last component when one is available, and is dropped at the
root of an absolute path. -/
def normLoop (abs : Bool) : List (List Char) → List (List Char) → List (List Char)
  | acc, [] => acc.reverse
  | acc, comp :: rest =>
      if comp = [] ∨ comp = ['.'] then normLoop abs acc rest
      else if comp ≠ dd ∨ (abs = false ∧ acc = []) ∨ acc.head? = some dd then
        normLoop abs (comp :: acc) rest
      else
        match acc with
        | [] => normLoop abs [] rest
        | _ :: acc₁ => normLoop abs acc₁ rest

/-- posixpath.normpath of python 2.7, as called at diarization.py line 98. -/
def normpath (p : List Char) : List Char :=
  if p = [] then ['.']
  else
    let s := islashes p
    let comps := normLoop (s != 0) [] (splitSlash p)
    let out := List.replicate s '/' ++ joinSlash comps
    if out = [] then ['.'] else out

/-- posixpath.join(a, b) of python 2.7, as used for the output paths. -/
def pyJoin (a b : List Char) : List Char :=
  if strStarts ['/'] b then b
  else if a = [] ∨ a.getLast? = some '/' then a ++ b
  else a ++ '/' :: b

/-! ### Diarization.score (diarization.py lines 90-120) -/

/-- The abstract dependencies of diarization.py, injected by the missing
Normalization base class: the composite clustering step (global random
state counter, n_clusters, data), the PLDA scorer with its calibration
already bound, the s-norm scorer, the trained classifier in probability
mode, whether a norm_list was configured, and the optional cohort. -/
structure Env where
  cluster : ℕ → ℤ → Mat → Mat
  pldaScore : Mat → Mat → Mat
  sNorm : Mat → Mat → Mat
  test : List ℚ → List ℚ
  hasNormList : Bool
  normIvecs : Option Mat

/-- The warning logged by score for an empty set. -/
def scoreWarn (n : List Char) : List Char :=
  ("[Diarization.score] No i-vectors to score in ".toList) ++ n ++ (".".toList)

/-- The per-set loop of Diarization.score.  rng is the global random state
counter: the known-count branch consumes one clustering call, the
estimation branch consumes one per candidate count.  The dict key is
os.path.normpath of the set name; empty sets only log a warning; a set of
unknown count without a cohort raises (score line 111). -/
def scoreLoop (env : Env) :
    List IvecSet → ℕ → List (List Char × Mat) → List (List Char) →
      Except DiarError (List (List Char × Mat) × List (List Char))
  | [], _, scores_dict, warns => .ok (scores_dict, warns)
  | s :: rest, rng, scores_dict, warns =>
      let name := normpath s.name
      let data := s.get_all
      if 0 < s.size then
        match s.num_speakers with
        | some k =>
            let centroids := env.cluster rng k data
            let v := if env.hasNormList = false then env.pldaScore data centroids
                     else env.sNorm data centroids
            scoreLoop env rest (rng + 1) (dictInsert scores_dict name v) warns
        | none =>
            match env.normIvecs with
            | some _ =>
                match get_num_speakers (fun i c => env.cluster (rng + i) (c : ℤ) data)
                    env.sNorm env.test 2 6 with
                | some (_, centroids) =>
                    let v := if env.hasNormList = false then env.pldaScore data centroids
                             else env.sNorm data centroids
                    scoreLoop env rest (rng + 5) (dictInsert scores_dict name v) warns
                | none => .error .indexError
            | none => .error .speakerCountUnknown
      else scoreLoop env rest rng scores_dict (warns ++ [scoreWarn s.name])

/-- Diarization.score on the loaded sets, starting from an empty dict. -/
def score (env : Env) (ivecs : List IvecSet) :
    Except DiarError (List (List Char × Mat) × List (List Char)) :=
  scoreLoop env ivecs 0 [] []

/-! ### Diarization.dump_rttm (diarization.py lines 122-144) -/

/-- One RTTM output line: group name, the window bounds of the embedding and
the assigned speaker index.  The emitted text renders float(start / 1000.0)
and float((end − start) / 1000.0), a floating-point formatting of exactly
these two integers that no claim inspects, so the line carries the raw
bounds. -/
structure RttmLine where
  reg_name : List Char
  window_start : ℤ
  window_end : ℤ
  spkr : ℕ
  deriving DecidableEq

/-- The warning logged by dump_rttm for an empty set. -/
def dumpWarn (n : List Char) : List Char :=
  ("[Diarization.dump_rttm] No i-vectors to dump in ".toList) ++ n ++ (".".toList)

/-- The literal pattern 'beamformed'. -/
def bfPat : List Char := "beamformed".toList

/-- The literal pattern 'beamformed/'. -/
def bfSlash : List Char := "beamformed/".toList

/-- The output path out_dir/name.rttm of a set (directory creation is a
file-system side effect outside the model). -/
def rttmPath (outDir name : List Char) : List Char :=
  pyJoin outDir (name ++ (".rttm".toList))

/-- The per-embedding loop writing one RTTM line per embedding: label =
np.argmax(scores.T[i]); the times are the window bounds divided by 1000. -/
def buildLines (m : Mat) (regName : List Char) : List Ivec → ℕ →
    Except DiarError (List RttmLine)
  | [], _ => .ok []
  | iv :: rest, i =>
      match matCol m i with
      | none => .error .indexError
      | some col =>
          match argmaxIdx col with
          | none => .error .valueError
          | some idx =>
              match buildLines m regName rest (i + 1) with
              | .error e => .error e
              | .ok ls =>
                  .ok ({ reg_name := regName,
                         window_start := iv.window_start,
                         window_end := iv.window_end,
                         spkr := idx } :: ls)

/-- The per-set loop of Diarization.dump_rttm.  For a non-empty set: the
dict key is the raw name captured before the beamformed rewrite; when the
name contains 'beamformed' the set's name attribute itself is rewritten
(all occurrences of 'beamformed/' removed) — dump_rttm is the only method
that mutates the sets, so the returned list is the state every later pass
observes; the output file path also uses the pre-rewrite name.  Empty sets
only log a warning. -/
def dumpLoop (scores : List (List Char × Mat)) (outDir : List Char) :
    List IvecSet →
      Except DiarError (List IvecSet × List (List Char × List RttmLine) × List (List Char))
  | [] => .ok ([], [], [])
  | s :: rest =>
      if 0 < s.size then
        let name := s.name
        let s₁ := if strHas bfPat s.name then { s with name := subAll bfSlash s.name } else s
        let regName := subSlashRest s₁.name
        match dictLookup scores name with
        | none => .error .keyError
        | some m =>
            match buildLines m regName s.ivecs 0 with
            | .error e => .error e
            | .ok lines =>
                match dumpLoop scores outDir rest with
                | .error e => .error e
                | .ok (sets, files, warns) =>
                    .ok (s₁ :: sets, (rttmPath outDir name, lines) :: files, warns)
      else
        match dumpLoop scores outDir rest with
        | .error e => .error e
        | .ok (sets, files, warns) => .ok (s :: sets, files, dumpWarn s.name :: warns)

/-- Diarization.dump_rttm: returns the mutated set list, the written files
and the logged warnings. -/
def dump_rttm (scores : List (List Char × Mat)) (outDir : List Char)
    (ivecs : List IvecSet) :
    Except DiarError (List IvecSet × List (List Char × List RttmLine) × List (List Char)) :=
  dumpLoop scores outDir ivecs

/-! ### Diarization.load_ivecs, one manifest line (diarization.py lines 66-88) -/

/-- One iteration of the load_ivecs loop.  load models pickle.load on the
resolved file (none = IOError, logged and skipped); pyInt models python
int() on a token (none = ValueError, uncaught).  The logging call at line
68 indexes split()[0] on the stripped line before the token-count check, so
an empty line raises IndexError there.  One token: the pickled set is
yielded unchanged (the resolved id is the whole stripped line).  Two
tokens: int() runs first, then the set is loaded and its num_speakers
field assigned.  Any other count raises the malformed-manifest
DiarizationException (line 82). -/
def loadLine (load : List Char → Option IvecSet) (pyInt : List Char → Option ℤ)
    (line : List Char) : Except DiarError (Option IvecSet) :=
  let stripped := rstrip line
  let toks := pySplit stripped
  match toks.head? with
  | none => .error .indexError
  | some _ =>
      if toks.length = 1 then .ok (load stripped)
      else if toks.length = 2 then
        match pyInt (toks.getD 1 []) with
        | none => .error .valueError
        | some n => .ok ((load (toks.getD 0 [])).map (fun s => { s with num_speakers := some n }))
      else .error .malformedManifest

/-! ### Properties of the numpy argmax model -/

lemma argmaxGo_spec (xs : List ℚ) : ∀ (bi : ℕ) (bv : ℚ) (i : ℕ),
    (argmaxGo bi bv i xs = (bi, bv) ∧ ∀ j w, xs.get? j = some w → w ≤ bv) ∨
    (∃ j w, xs.get? j = some w ∧ argmaxGo bi bv i xs = (i + j, w) ∧ bv < w ∧
      (∀ k u, xs.get? k = some u → u ≤ w) ∧
      (∀ k u, k < j → xs.get? k = some u → u < w)) := by
  induction xs with
  | nil =>
      intro bi bv i
      left
      refine ⟨rfl, fun j w h => ?_⟩
      simp at h
  | cons x rest ih =>
      intro bi bv i
      have hstep : ∀ bi₁ bv₁ i₁, argmaxGo bi₁ bv₁ i₁ (x :: rest) =
          if bv₁ < x then argmaxGo i₁ x (i₁ + 1) rest else argmaxGo bi₁ bv₁ (i₁ + 1) rest := by
        intro bi₁ bv₁ i₁
        rfl
      by_cases hx : bv < x
      · right
        rcases ih i x (i + 1) with ⟨heq, hle⟩ | ⟨j, w, hget, heq, hlt, hmax, hfirst⟩
        · refine ⟨0, x, rfl, ?_, hx, ?_, ?_⟩
          · rw [hstep, if_pos hx, heq, Nat.add_zero]
          · intro k u hk
            cases k with
            | zero =>
                rw [List.get?_cons_zero, Option.some_inj] at hk
                exact le_of_eq hk.symm
            | succ k₁ => exact hle k₁ u hk
          · intro k u hklt _
            exact absurd hklt (Nat.not_lt_zero k)
        · refine ⟨j + 1, w, hget, ?_, lt_trans hx hlt, ?_, ?_⟩
          · rw [hstep, if_pos hx, heq]
            congr 1
            omega
          · intro k u hk
            cases k with
            | zero =>
                rw [List.get?_cons_zero, Option.some_inj] at hk
                exact hk ▸ le_of_lt hlt
            | succ k₁ => exact hmax k₁ u hk
          · intro k u hklt hk
            cases k with
            | zero =>
                rw [List.get?_cons_zero, Option.some_inj] at hk
                exact hk ▸ hlt
            | succ k₁ => exact hfirst k₁ u (by omega) hk
      · rcases ih bi bv (i + 1) with ⟨heq, hle⟩ | ⟨j, w, hget, heq, hlt, hmax, hfirst⟩
        · left
          refine ⟨by rw [hstep, if_neg hx, heq], ?_⟩
          intro k u hk
          cases k with
          | zero =>
              rw [List.get?_cons_zero, Option.some_inj] at hk
              exact hk ▸ le_of_not_lt hx
          | succ k₁ => exact hle k₁ u hk
        · right
          refine ⟨j + 1, w, hget, ?_, hlt, ?_, ?_⟩
          · rw [hstep, if_neg hx, heq]
            congr 1
            omega
          · intro k u hk
            cases k with
            | zero =>
                rw [List.get?_cons_zero, Option.some_inj] at hk
                exact hk ▸ le_trans (le_of_not_lt hx) (le_of_lt hlt)
            | succ k₁ => exact hmax k₁ u hk
          · intro k u hklt hk
            cases k with
            | zero =>
                rw [List.get?_cons_zero, Option.some_inj] at hk
                exact hk ▸ lt_of_le_of_lt (le_of_not_lt hx) hlt
            | succ k₁ => exact hfirst k₁ u (by omega) hk

/-- np.argmax returns an attained index whose value bounds every entry, and
any entry reaching that value sits at that index or later. -/
lemma argmaxIdx_spec (l : List ℚ) (i : ℕ) (h : argmaxIdx l = some i) :
    ∃ v, l.get? i = some v ∧ (∀ j w, l.get? j = some w → w ≤ v) ∧
      (∀ j w, l.get? j = some w → v ≤ w → i ≤ j) := by
  cases l with
  | nil => simp [argmaxIdx] at h
  | cons x xs =>
      simp only [argmaxIdx, Option.some.injEq] at h
      rcases argmaxGo_spec xs 0 x 1 with ⟨heq, hle⟩ | ⟨j, w, hget, heq, hlt, hmax, hfirst⟩
      · have hi : i = 0 := by rw [heq] at h; exact h.symm
        subst hi
        refine ⟨x, rfl, ?_, ?_⟩
        · intro j w hj
          cases j with
          | zero =>
              rw [List.get?_cons_zero, Option.some_inj] at hj
              exact le_of_eq hj.symm
          | succ j₁ => exact hle j₁ w hj
        · intro j w _ _
          exact Nat.zero_le j
      · have hi : i = 1 + j := by rw [heq] at h; exact h.symm
        subst hi
        refine ⟨w, ?_, ?_, ?_⟩
        · have h1 : 1 + j = j + 1 := by omega
          rw [h1, List.get?_cons_succ]
          exact hget
        · intro k u hk
          cases k with
          | zero =>
              rw [List.get?_cons_zero, Option.some_inj] at hk
              exact hk ▸ le_of_lt hlt
          | succ k₁ => exact hmax k₁ u hk
        · intro k u hk hwu
          cases k with
          | zero =>
              rw [List.get?_cons_zero, Option.some_inj] at hk
              exact absurd hwu (not_le_of_lt (hk ▸ hlt))
          | succ k₁ =>
              by_contra hcon
              have hk₁ : k₁ < j := by omega
              exact absurd hwu (not_le_of_lt (hfirst k₁ u hk₁ hk))

/-! ### Properties of the get_num_speakers candidate loop -/

lemma gnsLoop_spec (cluster : ℕ → ℕ → Mat) (sNorm : Mat → Mat → Mat) :
    ∀ (cands : List ℕ) (cl : List Mat) (fl : List (List ℚ))
      (cl₁ : List Mat) (fl₁ : List (List ℚ)),
      gnsLoop cluster sNorm cands cl fl = some (cl₁, fl₁) →
      cl₁.length = cl.length + cands.length ∧
      (∀ i, i < cl.length → cl₁.get? i = cl.get? i) ∧
      (∀ j c, cands.get? j = some c →
        cl₁.get? (cl.length + j) = some (cluster (cl.length + j) c)) := by
  intro cands
  induction cands with
  | nil =>
      intro cl fl cl₁ fl₁ h
      simp only [gnsLoop, Option.some.injEq, Prod.mk.injEq] at h
      obtain ⟨rfl, rfl⟩ := h
      refine ⟨by simp, fun i _ => rfl, fun j c hj => ?_⟩
      simp at hj
  | cons c rest ih =>
      intro cl fl cl₁ fl₁ h
      simp only [gnsLoop] at h
      split at h
      · exact absurd h (by simp)
      · rename_i scores htr
        obtain ⟨hlen, hpre, hpos⟩ := ih (cl ++ [cluster cl.length c])
          (fl ++ [get_features scores]) cl₁ fl₁ h
        have hlen₂ : (cl ++ [cluster cl.length c]).length = cl.length + 1 := by simp
        refine ⟨?_, ?_, ?_⟩
        · rw [hlen, hlen₂]
          simp only [List.length_cons]
          omega
        · intro i hi
          have := hpre i (by rw [hlen₂]; omega)
          rw [this, List.get?_append hi]
        · intro j cj hj
          cases j with
          | zero =>
              simp only [List.get?_cons_zero, Option.some.injEq] at hj
              subst hj
              have := hpre cl.length (by rw [hlen₂]; omega)
              rw [Nat.add_zero, this, List.get?_concat_length]
          | succ j₁ =>
              simp only [List.get?_cons_succ] at hj
              have := hpos j₁ cj hj
              rw [hlen₂] at this
              have harith : cl.length + 1 + j₁ = cl.length + (j₁ + 1) := by omega
              rw [harith] at this
              exact this

/-- The candidate list of the default bounds. -/
lemma range_default : List.range' 2 (6 + 1 - 2) = [2, 3, 4, 5, 6] := rfl

/-- Extract the internal loop results from a successful get_num_speakers. -/
lemma get_num_speakers_extract (cluster : ℕ → ℕ → Mat) (sNorm : Mat → Mat → Mat)
    (test : List ℚ → List ℚ) (c : ℕ) (m : Mat)
    (h : get_num_speakers cluster sNorm test 2 6 = some (c, m)) :
    ∃ cl fl idx, gnsLoop cluster sNorm [2, 3, 4, 5, 6] [] [] = some (cl, fl) ∧
      argmaxIdx (colSum (fl.map test)) = some idx ∧
      cl.get? idx = some m ∧ c = idx + 2 := by
  unfold get_num_speakers at h
  rw [range_default] at h
  split at h
  · exact absurd h (by simp)
  · rename_i cl fl hg
    split at h
    · exact absurd h (by simp)
    · rename_i idx ha
      obtain ⟨cs, hcs, heq⟩ := Option.map_eq_some'.mp h
      obtain ⟨h₁, h₂⟩ := Prod.mk.injEq .. |>.mp heq
      exact ⟨cl, fl, idx, hg, ha, by rw [hcs, h₂], by omega⟩

/-- Values at the candidate positions of the default candidate list. -/
lemma cand_get (idx : ℕ) (h : idx < 5) : [2, 3, 4, 5, 6].get? idx = some (2 + idx) := by
  interval_cases idx <;> rfl

/-! ### Concrete instances used to witness the claims -/

/-- Clustering stub: the call with random state i yields the 1×1 matrix i. -/
def clusterW : ℕ → ℕ → Mat := fun i _ => [[(i : ℚ)]]

/-- Scoring stub: every pair of sets scores to a 6×6 zero matrix. -/
def sNormW : Mat → Mat → Mat := fun _ _ => List.replicate 6 (List.replicate 6 (0 : ℚ))

/-- Classifier stub: constant probability row. -/
def testW : List ℚ → List ℚ := fun _ => [(1 : ℚ)]

/-- The feature vectors the stubs produce for the candidates 2, 3, 4, 5, 6. -/
def f0W : List ℚ := List.replicate 1 0

def f1W : List ℚ := List.replicate 3 0

def f2W : List ℚ := List.replicate 6 0

def f3W : List ℚ := List.replicate 10 0

def f4W : List ℚ := List.replicate 15 0

/-! ### Claims about get_num_speakers -/

/-- Claim C1: with bounds minSpeakers = 2, maxSpeakers = 6, get_num_speakers
visits every candidate count in [2, 6]; for each candidate c it clusters the
embeddings to c centroids (the c − 2 nd clustering call), scores those
centroids against themselves with the symmetric normalization, takes exactly
the strictly-lower-triangular entries of that matrix (diagonal excluded) as
the feature vector handed to the classifier in probability mode, and picks
the candidate whose column-wise sum of predicted-class probabilities over
all candidates is maximal (np.argmax of np.sum(..., axis=0)). -/
theorem get_num_speakers_pipeline_c1 (cluster : ℕ → ℕ → Mat) (sNorm : Mat → Mat → Mat)
    (test : List ℚ → List ℚ) (f0 f1 f2 f3 f4 : List ℚ)
    (h0 : trilStrict (sNorm (cluster 0 2) (cluster 0 2)) 2 = some f0)
    (h1 : trilStrict (sNorm (cluster 1 3) (cluster 1 3)) 3 = some f1)
    (h2 : trilStrict (sNorm (cluster 2 4) (cluster 2 4)) 4 = some f2)
    (h3 : trilStrict (sNorm (cluster 3 5) (cluster 3 5)) 5 = some f3)
    (h4 : trilStrict (sNorm (cluster 4 6) (cluster 4 6)) 6 = some f4) :
    get_num_speakers cluster sNorm test 2 6 =
      (argmaxIdx (colSum [test (get_features f0), test (get_features f1),
          test (get_features f2), test (get_features f3), test (get_features f4)])).bind
        (fun idx =>
          ([cluster 0 2, cluster 1 3, cluster 2 4, cluster 3 5, cluster 4 6].get? idx).map
            (fun cs => (idx + 2, cs))) := by
  unfold get_num_speakers
  rw [range_default]
  simp only [gnsLoop, List.length_nil, List.nil_append, List.length_cons,
    List.cons_append, List.length_singleton, h0, h1, h2, h3, h4, List.nil_append,
    List.map_cons, List.map_nil]
  cases argmaxIdx (colSum [test (get_features f0), test (get_features f1),
      test (get_features f2), test (get_features f3), test (get_features f4)]) with
  | none => rfl
  | some idx => rfl

/-- Witness for C1 at a concrete clusterer, scorer and classifier. -/
theorem get_num_speakers_pipeline_c1_w :
    get_num_speakers clusterW sNormW testW 2 6 =
      (argmaxIdx (colSum [testW (get_features f0W), testW (get_features f1W),
          testW (get_features f2W), testW (get_features f3W), testW (get_features f4W)])).bind
        (fun idx =>
          ([clusterW 0 2, clusterW 1 3, clusterW 2 4, clusterW 3 5, clusterW 4 6].get? idx).map
            (fun cs => (idx + 2, cs))) :=
  get_num_speakers_pipeline_c1 clusterW sNormW testW f0W f1W f2W f3W f4W
    (by decide) (by decide) (by decide) (by decide) (by decide)

/-- Claim C2: a successful get_num_speakers returns, as second component,
exactly the stored centroid list entry of the winning candidate: the matrix
produced by the clustering call of loop iteration c − 2 (global random
state c − 2).  No clustering call with a later random state is consulted,
i.e. no re-clustering happens after selection. -/
theorem get_num_speakers_reuse_c2 (cluster : ℕ → ℕ → Mat) (sNorm : Mat → Mat → Mat)
    (test : List ℚ → List ℚ) (c : ℕ) (m : Mat)
    (h : get_num_speakers cluster sNorm test 2 6 = some (c, m)) :
    ∃ cl fl, gnsLoop cluster sNorm [2, 3, 4, 5, 6] [] [] = some (cl, fl) ∧
      cl.get? (c - 2) = some m ∧ m = cluster (c - 2) c := by
  obtain ⟨cl, fl, idx, hg, ha, hget, hc⟩ := get_num_speakers_extract cluster sNorm test c m h
  obtain ⟨hlen, _, hpos⟩ := gnsLoop_spec cluster sNorm [2, 3, 4, 5, 6] [] [] cl fl hg
  have hidx : idx < cl.length := by
    obtain ⟨hw, -⟩ := List.get?_eq_some.mp hget
    exact hw
  have hlen5 : cl.length = 5 := by simpa using hlen
  have hcand := hpos idx (2 + idx) (cand_get idx (by omega))
  simp only [List.length_nil, Nat.zero_add] at hcand
  have hm : m = cluster idx (2 + idx) := by
    rw [hget] at hcand
    exact Option.some_inj.mp hcand
  have hi : c - 2 = idx := by omega
  have hv : 2 + idx = c := by omega
  rw [hi]
  exact ⟨cl, fl, hg, by rw [hget], by rw [hm, hv]⟩

/-- Witness for C2. -/
theorem get_num_speakers_reuse_c2_w :
    ∃ cl fl, gnsLoop clusterW sNormW [2, 3, 4, 5, 6] [] [] = some (cl, fl) ∧
      cl.get? (2 - 2) = some [[(0 : ℚ)]] ∧ [[(0 : ℚ)]] = clusterW (2 - 2) 2 :=
  get_num_speakers_reuse_c2 clusterW sNormW testW 2 [[(0 : ℚ)]] (by decide)

/-- Claim C5: whenever get_num_speakers with the default bounds 2 and 6
returns normally, the estimated speaker count lies in [2, 6]. -/
theorem get_num_speakers_bounds_c5 (cluster : ℕ → ℕ → Mat) (sNorm : Mat → Mat → Mat)
    (test : List ℚ → List ℚ) (c : ℕ) (m : Mat)
    (h : get_num_speakers cluster sNorm test 2 6 = some (c, m)) :
    2 ≤ c ∧ c ≤ 6 := by
  obtain ⟨cl, fl, idx, hg, ha, hget, hc⟩ := get_num_speakers_extract cluster sNorm test c m h
  have hlen := (gnsLoop_spec cluster sNorm [2, 3, 4, 5, 6] [] [] cl fl hg).1
  have hidx : idx < cl.length := by
    obtain ⟨hw, -⟩ := List.get?_eq_some.mp hget
    exact hw
  simp only [List.length_nil, List.length_cons, Nat.zero_add] at hlen
  omega

/-- Witness for C5. -/
theorem get_num_speakers_bounds_c5_w : 2 ≤ 2 ∧ 2 ≤ 6 :=
  get_num_speakers_bounds_c5 clusterW sNormW testW 2 [[(0 : ℚ)]] (by decide)

/-- Claim C10: the winning candidate count returned by get_num_speakers is
the smallest candidate attaining the maximal accumulated probability: its
index c − 2 carries the maximum of the column-wise probability sums, and
every index whose sum reaches that value is ≥ c − 2 (np.argmax takes the
first maximal index). -/
theorem get_num_speakers_first_max_c10 (cluster : ℕ → ℕ → Mat) (sNorm : Mat → Mat → Mat)
    (test : List ℚ → List ℚ) (c : ℕ) (m : Mat)
    (h : get_num_speakers cluster sNorm test 2 6 = some (c, m)) :
    ∃ cl fl v, gnsLoop cluster sNorm [2, 3, 4, 5, 6] [] [] = some (cl, fl) ∧
      (colSum (fl.map test)).get? (c - 2) = some v ∧
      (∀ j w, (colSum (fl.map test)).get? j = some w → w ≤ v) ∧
      (∀ j w, (colSum (fl.map test)).get? j = some w → v ≤ w → c - 2 ≤ j) := by
  obtain ⟨cl, fl, idx, hg, ha, hget, hc⟩ := get_num_speakers_extract cluster sNorm test c m h
  obtain ⟨v, hv, hmax, hfirst⟩ := argmaxIdx_spec _ idx ha
  have hi : c - 2 = idx := by omega
  rw [hi]
  exact ⟨cl, fl, v, hg, hv, hmax, hfirst⟩

/-- Witness for C10. -/
theorem get_num_speakers_first_max_c10_w :
    ∃ cl fl v, gnsLoop clusterW sNormW [2, 3, 4, 5, 6] [] [] = some (cl, fl) ∧
      (colSum (fl.map testW)).get? (2 - 2) = some v ∧
      (∀ j w, (colSum (fl.map testW)).get? j = some w → w ≤ v) ∧
      (∀ j w, (colSum (fl.map testW)).get? j = some w → v ≤ w → 2 - 2 ≤ j) :=
  get_num_speakers_first_max_c10 clusterW sNormW testW 2 [[(0 : ℚ)]] (by decide)

/-- Claim C7: the label assigned to embedding i (np.argmax over the score
vector scores.T[i], in dump_rttm and get_der) is the arg-max of that
embedding's scores, with equal maximal scores resolved to the lowest
centroid index; being a pure function of the score matrix, identical score
matrices yield identical labels. -/
theorem assign_label_argmax_c7 (m m₂ : Mat) (i l : ℕ)
    (h : assignLabel m i = some l) :
    (∃ col v, matCol m i = some col ∧ col.get? l = some v ∧
      (∀ j w, col.get? j = some w → w ≤ v) ∧
      (∀ j w, col.get? j = some w → v ≤ w → l ≤ j)) ∧
    (m = m₂ → assignLabel m₂ i = some l) := by
  obtain ⟨col, hcol, hargs⟩ := Option.bind_eq_some.mp h
  obtain ⟨v, hv, hmax, hfirst⟩ := argmaxIdx_spec col l hargs
  exact ⟨⟨col, v, hcol, hv, hmax, hfirst⟩, fun he => he ▸ h⟩

/-- Witness for C7. -/
theorem assign_label_argmax_c7_w :
    (∃ col v, matCol [[(1 : ℚ), 2], [3, 0]] 0 = some col ∧ col.get? 1 = some v ∧
      (∀ j w, col.get? j = some w → w ≤ v) ∧
      (∀ j w, col.get? j = some w → v ≤ w → 1 ≤ j)) ∧
    ([[(1 : ℚ), 2], [3, 0]] = [[(1 : ℚ), 2], [3, 0]] →
      assignLabel [[(1 : ℚ), 2], [3, 0]] 0 = some 1) :=
  assign_label_argmax_c7 [[(1 : ℚ), 2], [3, 0]] [[(1 : ℚ), 2], [3, 0]] 0 1 (by decide)

instance {ε α : Type} [DecidableEq ε] [DecidableEq α] : DecidableEq (Except ε α) :=
  fun a b =>
    match a, b with
    | .error x, .error y => decidable_of_iff (x = y) (by simp)
    | .ok x, .ok y => decidable_of_iff (x = y) (by simp)
    | .error _, .ok _ => isFalse (by simp)
    | .ok _, .error _ => isFalse (by simp)

instance : DecidableEq (List (List Char × Mat) × List (List Char)) :=
  instDecidableEqProd

instance : DecidableEq (List IvecSet × List (List Char × List RttmLine) × List (List Char)) :=
  instDecidableEqProd

/-! ### Properties of the python dict model -/

lemma dictInsert_lookup (d : List (List Char × Mat)) (k k₁ : List Char) (v : Mat) :
    dictLookup (dictInsert d k v) k₁ = if k = k₁ then some v else dictLookup d k₁ := by
  induction d with
  | nil =>
      by_cases h : k = k₁ <;> simp [dictInsert, dictLookup, h]
  | cons p rest ih =>
      obtain ⟨k₀, v₀⟩ := p
      by_cases h0 : k₀ = k
      · subst h0
        by_cases h1 : k₀ = k₁ <;> simp [dictInsert, dictLookup, h1]
      · by_cases h1 : k₀ = k₁
        · have hk : ¬(k = k₁) := fun he => h0 (h1.trans he.symm)
          have hk₂ : ¬(k₁ = k) := fun he => hk he.symm
          simp [dictInsert, dictLookup, h0, h1, hk, hk₂]
        · simp [dictInsert, dictLookup, h0, h1, ih]

/-! ### Properties of the score loop -/

/-- The dict produced by a completed score loop binds exactly the prior keys
plus the normpath of every non-empty set's name; the warning list grows
monotonically and receives one entry per empty set. -/
lemma scoreLoop_spec (env : Env) :
    ∀ (sets : List IvecSet) (rng : ℕ) (dict : List (List Char × Mat))
      (warns : List (List Char)) (d : List (List Char × Mat)) (ws : List (List Char)),
      scoreLoop env sets rng dict warns = .ok (d, ws) →
      (∀ k, (dictLookup d k).isSome ↔
        ((dictLookup dict k).isSome ∨ ∃ t ∈ sets, 0 < t.size ∧ normpath t.name = k)) ∧
      (∀ w ∈ warns, w ∈ ws) ∧
      (∀ t ∈ sets, t.size = 0 → scoreWarn t.name ∈ ws) := by
  intro sets
  induction sets with
  | nil =>
      intro rng dict warns d ws h
      simp only [scoreLoop, Except.ok.injEq, Prod.mk.injEq] at h
      obtain ⟨rfl, rfl⟩ := h
      refine ⟨fun k => by simp, fun w hw => hw, fun t ht => absurd ht (List.not_mem_nil t)⟩
  | cons s rest ih =>
      intro rng dict warns d ws h
      by_cases hsz : 0 < s.size
      · have hmain : ∀ (rng₁ : ℕ) (v : Mat),
            scoreLoop env rest rng₁ (dictInsert dict (normpath s.name) v) warns = .ok (d, ws) →
            (∀ k, (dictLookup d k).isSome ↔
              ((dictLookup dict k).isSome ∨ ∃ t ∈ s :: rest, 0 < t.size ∧ normpath t.name = k)) ∧
            (∀ w ∈ warns, w ∈ ws) ∧
            (∀ t ∈ s :: rest, t.size = 0 → scoreWarn t.name ∈ ws) := by
          intro rng₁ v hrec
          obtain ⟨hkeys, hwmono, hwarn⟩ := ih rng₁ (dictInsert dict (normpath s.name) v) warns d ws hrec
          have hins : ∀ k₁, (dictLookup (dictInsert dict (normpath s.name) v) k₁).isSome ↔
              (normpath s.name = k₁ ∨ (dictLookup dict k₁).isSome) := by
            intro k₁
            rw [dictInsert_lookup]
            by_cases he : normpath s.name = k₁ <;> simp [he]
          refine ⟨?_, hwmono, ?_⟩
          · intro k₁
            rw [hkeys k₁]
            constructor
            · rintro (hl | ⟨t, ht, h1, h2⟩)
              · rcases (hins k₁).mp hl with he | hdict
                · exact Or.inr ⟨s, List.mem_cons_self s rest, hsz, he⟩
                · exact Or.inl hdict
              · exact Or.inr ⟨t, List.mem_cons_of_mem s ht, h1, h2⟩
            · rintro (hdict | ⟨t, ht, h1, h2⟩)
              · exact Or.inl ((hins k₁).mpr (Or.inr hdict))
              · rcases List.mem_cons.mp ht with rfl | ht₁
                · exact Or.inl ((hins k₁).mpr (Or.inl h2))
                · exact Or.inr ⟨t, ht₁, h1, h2⟩
          · intro t ht ht0
            rcases List.mem_cons.mp ht with rfl | ht₁
            · omega
            · exact hwarn t ht₁ ht0
        cases hns : s.num_speakers with
        | some k =>
            simp only [scoreLoop, if_pos hsz, hns] at h
            exact hmain _ _ h
        | none =>
            cases hni : env.normIvecs with
            | none =>
                simp only [scoreLoop, if_pos hsz, hns, hni] at h
                exact absurd h (by simp)
            | some nm =>
                cases hg : get_num_speakers (fun i c => env.cluster (rng + i) (c : ℤ) s.get_all)
                    env.sNorm env.test 2 6 with
                | none =>
                    simp only [scoreLoop, if_pos hsz, hns, hni, hg] at h
                    exact absurd h (by simp)
                | some r =>
                    obtain ⟨k, centroids⟩ := r
                    simp only [scoreLoop, if_pos hsz, hns, hni, hg] at h
                    exact hmain _ _ h
      · simp only [scoreLoop, if_neg hsz] at h
        obtain ⟨hkeys, hwmono, hwarn⟩ := ih rng dict (warns ++ [scoreWarn s.name]) d ws h
        refine ⟨?_, fun w hw => hwmono w (List.mem_append_left _ hw), ?_⟩
        · intro k₁
          rw [hkeys k₁]
          constructor
          · rintro (hd | ⟨t, ht, h1, h2⟩)
            · exact Or.inl hd
            · exact Or.inr ⟨t, List.mem_cons_of_mem s ht, h1, h2⟩
          · rintro (hd | ⟨t, ht, h1, h2⟩)
            · exact Or.inl hd
            · rcases List.mem_cons.mp ht with rfl | ht₁
              · exact absurd h1 hsz
              · exact Or.inr ⟨t, ht₁, h1, h2⟩
        · intro t ht ht0
          rcases List.mem_cons.mp ht with rfl | ht₁
          · exact hwmono _ (List.mem_append_right _ (List.mem_singleton.mpr rfl))
          · exact hwarn t ht₁ ht0

/-- The keys of the dict returned by score are exactly the normpath images
of the names of the non-empty sets. -/
lemma score_keys (env : Env) (sets : List IvecSet) (d : List (List Char × Mat))
    (ws : List (List Char)) (h : score env sets = .ok (d, ws)) :
    ∀ k, (dictLookup d k).isSome ↔ ∃ t ∈ sets, 0 < t.size ∧ normpath t.name = k := by
  intro k
  rw [(scoreLoop_spec env sets 0 [] [] d ws h).1 k]
  simp [dictLookup]

/-- Reaching a non-empty set of unknown speaker count with no cohort makes
the whole score loop fail with the speaker-count DiarizationException. -/
lemma scoreLoop_no_cohort (env : Env) (hni : env.normIvecs = none) (s : IvecSet)
    (hsz : 0 < s.size) (hns : s.num_speakers = none) :
    ∀ (sets : List IvecSet) (rng : ℕ) (dict : List (List Char × Mat))
      (warns : List (List Char)), s ∈ sets →
      scoreLoop env sets rng dict warns = .error .speakerCountUnknown := by
  intro sets
  induction sets with
  | nil =>
      intro rng dict warns hmem
      exact absurd hmem (List.not_mem_nil s)
  | cons t rest ih =>
      intro rng dict warns hmem
      by_cases htz : 0 < t.size
      · cases hnt : t.num_speakers with
        | some k =>
            simp only [scoreLoop, if_pos htz, hnt]
            apply ih
            rcases List.mem_cons.mp hmem with rfl | h₁
            · rw [hns] at hnt
              exact absurd hnt (by simp)
            · exact h₁
        | none =>
            simp only [scoreLoop, if_pos htz, hnt, hni]
      · simp only [scoreLoop, if_neg htz]
        apply ih
        rcases List.mem_cons.mp hmem with rfl | h₁
        · exact absurd hsz htz
        · exact h₁

/-! ### Claim C4 -/

/-- Claim C4: a non-empty set whose speaker count is unset makes score fail
with the speaker-count-unknown DiarizationException when no cohort is
configured, so no score dict is produced at all. -/
theorem no_cohort_fails_c4 (env : Env) (sets : List IvecSet) (s : IvecSet)
    (hni : env.normIvecs = none) (hs : s ∈ sets) (hsz : 0 < s.size)
    (hns : s.num_speakers = none) :
    score env sets = .error .speakerCountUnknown :=
  scoreLoop_no_cohort env hni s hsz hns sets 0 [] [] hs

/-- A concrete environment with no cohort and no norm list. -/
def envW : Env :=
  { cluster := fun _ _ _ => [[(1 : ℚ)]], pldaScore := fun _ _ => [[(1 : ℚ)]],
    sNorm := fun _ _ => [[(1 : ℚ)]], test := fun _ => [(1 : ℚ)],
    hasNormList := false, normIvecs := none }

/-- A non-empty set with a known speaker count. -/
def setKnownW : IvecSet :=
  { name := ['a'], num_speakers := some 1, ivecs := [⟨0, 1000, [1]⟩] }

/-- A non-empty set with an unknown speaker count. -/
def setUnknownW : IvecSet :=
  { name := ['b'], num_speakers := none, ivecs := [⟨0, 1000, [1]⟩] }

/-- An empty set. -/
def setEmptyW : IvecSet := { name := ['e'], num_speakers := some 1, ivecs := [] }

/-- Witness for C4. -/
theorem no_cohort_fails_c4_w : score envW [setUnknownW] = .error .speakerCountUnknown :=
  no_cohort_fails_c4 envW [setUnknownW] setUnknownW rfl (by simp) (by decide) rfl

/-! ### Properties of the dump loop -/

/-- A completed dump loop writes exactly one file per non-empty set (at the
pre-rewrite path), warns once per empty set, and returns the set list in
which exactly the non-empty sets whose name contains 'beamformed' carry the
rewritten name (all occurrences of 'beamformed/' removed) while every other
set and every other attribute is unchanged. -/
lemma dumpLoop_spec (scores : List (List Char × Mat)) (outDir : List Char) :
    ∀ (sets sets₁ : List IvecSet) (files : List (List Char × List RttmLine))
      (ws₁ : List (List Char)),
      dumpLoop scores outDir sets = .ok (sets₁, files, ws₁) →
      (∀ f ∈ files, ∃ t ∈ sets, 0 < t.size ∧ f.1 = rttmPath outDir t.name) ∧
      (∀ t ∈ sets, 0 < t.size → rttmPath outDir t.name ∈ files.map Prod.fst) ∧
      (∀ t ∈ sets, t.size = 0 → dumpWarn t.name ∈ ws₁) ∧
      sets₁.length = sets.length ∧
      (∀ i, sets₁.get? i = (sets.get? i).map (fun t =>
        if 0 < t.size ∧ strHas bfPat t.name = true then
          { t with name := subAll bfSlash t.name } else t)) := by
  intro sets
  induction sets with
  | nil =>
      intro sets₁ files ws₁ h
      simp only [dumpLoop, Except.ok.injEq, Prod.mk.injEq] at h
      obtain ⟨rfl, rfl, rfl⟩ := h
      refine ⟨fun f hf => absurd hf (List.not_mem_nil f), fun t ht => absurd ht (List.not_mem_nil t),
        fun t ht => absurd ht (List.not_mem_nil t), rfl, fun i => by simp⟩
  | cons s rest ih =>
      intro sets₁ files ws₁ h
      by_cases hsz : 0 < s.size
      · cases hlk : dictLookup scores s.name with
        | none =>
            simp only [dumpLoop, if_pos hsz, hlk] at h
            exact absurd h (by simp)
        | some m =>
            cases hbl : buildLines m (subSlashRest
                (if strHas bfPat s.name then { s with name := subAll bfSlash s.name } else s).name)
                s.ivecs 0 with
            | error e =>
                simp only [dumpLoop, if_pos hsz, hlk, hbl] at h
                exact absurd h (by simp)
            | ok lines =>
                cases hrec : dumpLoop scores outDir rest with
                | error e =>
                    simp only [dumpLoop, if_pos hsz, hlk, hbl, hrec] at h
                    exact absurd h (by simp)
                | ok triple =>
                    obtain ⟨sets₂, files₂, ws₂⟩ := triple
                    obtain ⟨hfiles, hcover, hwarn, hlen, hget⟩ := ih sets₂ files₂ ws₂ hrec
                    simp only [dumpLoop, if_pos hsz, hlk, hbl, hrec, Except.ok.injEq,
                      Prod.mk.injEq] at h
                    obtain ⟨rfl, rfl, rfl⟩ := h
                    refine ⟨?_, ?_, ?_, by simp [hlen], ?_⟩
                    · intro f hf
                      rcases List.mem_cons.mp hf with rfl | hf₁
                      · exact ⟨s, List.mem_cons_self s rest, hsz, rfl⟩
                      · obtain ⟨t, ht, h1, h2⟩ := hfiles f hf₁
                        exact ⟨t, List.mem_cons_of_mem s ht, h1, h2⟩
                    · intro t ht htz
                      rcases List.mem_cons.mp ht with rfl | ht₁
                      · exact List.mem_cons_self _ _
                      · exact List.mem_cons_of_mem _ (hcover t ht₁ htz)
                    · intro t ht htz
                      rcases List.mem_cons.mp ht with rfl | ht₁
                      · omega
                      · exact hwarn t ht₁ htz
                    · intro i
                      cases i with
                      | zero =>
                          simp only [List.get?_cons_zero, Option.map_some']
                          by_cases hbf : strHas bfPat s.name = true
                          · simp [hbf, hsz]
                          · simp [hbf, hsz]
                      | succ i₁ =>
                          simp only [List.get?_cons_succ]
                          exact hget i₁
      · cases hrec : dumpLoop scores outDir rest with
        | error e =>
            simp only [dumpLoop, if_neg hsz, hrec] at h
            exact absurd h (by simp)
        | ok triple =>
            obtain ⟨sets₂, files₂, ws₂⟩ := triple
            obtain ⟨hfiles, hcover, hwarn, hlen, hget⟩ := ih sets₂ files₂ ws₂ hrec
            simp only [dumpLoop, if_neg hsz, hrec, Except.ok.injEq, Prod.mk.injEq] at h
            obtain ⟨rfl, rfl, rfl⟩ := h
            refine ⟨?_, ?_, ?_, by simp [hlen], ?_⟩
            · intro f hf
              obtain ⟨t, ht, h1, h2⟩ := hfiles f hf
              exact ⟨t, List.mem_cons_of_mem s ht, h1, h2⟩
            · intro t ht htz
              rcases List.mem_cons.mp ht with rfl | ht₁
              · omega
              · exact hcover t ht₁ htz
            · intro t ht htz
              rcases List.mem_cons.mp ht with rfl | ht₁
              · exact List.mem_cons_self _ _
              · exact List.mem_cons_of_mem _ (hwarn t ht₁ htz)
            · intro i
              cases i with
              | zero =>
                  simp only [List.get?_cons_zero, Option.map_some']
                  have : ¬(0 < s.size ∧ strHas bfPat s.name = true) := fun hc => hsz hc.1
                  simp [this]
              | succ i₁ =>
                  simp only [List.get?_cons_succ]
                  exact hget i₁

/-! ### Claim C9 (corrected) -/

/-- A size-0 set whose name contains 'beamformed'. -/
def setBfEmptyW : IvecSet :=
  { name := "beamformed/x".toList, num_speakers := some 1, ivecs := [] }

/-- Counterexample to C9 as stated: a set whose name contains 'beamformed'
but whose size is 0 passes through dump_rttm with its name NOT rewritten
(the rewrite sits inside the size > 0 branch), even though removing
'beamformed/' would change the name. -/
theorem dump_rttm_rename_c9_cex :
    strHas bfPat setBfEmptyW.name = true ∧
    dump_rttm [] ['o'] [setBfEmptyW] = .ok ([setBfEmptyW], [], [dumpWarn setBfEmptyW.name]) ∧
    subAll bfSlash setBfEmptyW.name ≠ setBfEmptyW.name := by
  refine ⟨by decide, by decide, by decide⟩

/-- Claim C9 (amended: the rewrite applies only to sets of size > 0):
dump_rttm returns the set list in which exactly the non-empty sets whose
name contains the substring 'beamformed' have their name attribute
rewritten (every occurrence of 'beamformed/' removed); every other set,
and every other attribute of every set, is unchanged.  The returned list
is the state all later passes over the set list observe. -/
theorem dump_rttm_rename_c9 (scores : List (List Char × Mat)) (outDir : List Char)
    (sets sets₁ : List IvecSet) (files : List (List Char × List RttmLine))
    (ws₁ : List (List Char))
    (h : dump_rttm scores outDir sets = .ok (sets₁, files, ws₁)) :
    sets₁.length = sets.length ∧
    (∀ i, sets₁.get? i = (sets.get? i).map (fun t =>
      if 0 < t.size ∧ strHas bfPat t.name = true then
        { t with name := subAll bfSlash t.name } else t)) := by
  obtain ⟨-, -, -, hlen, hget⟩ := dumpLoop_spec scores outDir sets sets₁ files ws₁ h
  exact ⟨hlen, hget⟩

/-- A non-empty set whose name contains 'beamformed'. -/
def setBfW : IvecSet :=
  { name := "beamformed/x".toList, num_speakers := some 1, ivecs := [⟨0, 1000, [1]⟩] }

/-- Witness for the amended C9: a non-empty beamformed set is renamed. -/
theorem dump_rttm_rename_c9_w :
    ([{ setBfW with name := ['x'] }, setBfEmptyW] : List IvecSet).length =
      ([setBfW, setBfEmptyW] : List IvecSet).length ∧
    (∀ i, ([{ setBfW with name := ['x'] }, setBfEmptyW] : List IvecSet).get? i =
      (([setBfW, setBfEmptyW] : List IvecSet).get? i).map (fun t =>
        if 0 < t.size ∧ strHas bfPat t.name = true then
          { t with name := subAll bfSlash t.name } else t)) :=
  dump_rttm_rename_c9 [(setBfW.name, [[(1 : ℚ)]])] ['o'] [setBfW, setBfEmptyW]
    [{ setBfW with name := ['x'] }, setBfEmptyW]
    [(rttmPath ['o'] setBfW.name, [⟨['x'], 0, 1000, 0⟩])]
    [dumpWarn setBfEmptyW.name] (by decide)

/-! ### Claim C6 (corrected) -/

/-- Counterexample to C6 as stated: an empty manifest line has 0 tokens — a
token count other than one or two — yet load_ivecs does not fail with the
malformed-manifest DiarizationException there: the logging call at line 68
indexes split()[0] first and raises IndexError instead. -/
theorem load_line_c6_cex :
    (pySplit (rstrip [])).length ≠ 1 ∧ (pySplit (rstrip [])).length ≠ 2 ∧
    loadLine (fun _ => none) (fun _ => none) [] = .error .indexError ∧
    DiarError.indexError ≠ DiarError.malformedManifest := by
  refine ⟨by decide, by decide, by decide, by decide⟩

/-- Claim C6 (amended: a line of one token loads the pickled set unchanged,
a line of two tokens loads it and assigns num_speakers the integer value of
the second token, a line of three or more tokens fails with the
malformed-manifest DiarizationException; a line of zero tokens, however,
fails with IndexError in the logging call before the token-count check). -/
theorem load_line_c6 (load : List Char → Option IvecSet) (pyInt : List Char → Option ℤ)
    (line : List Char) :
    ((pySplit (rstrip line)).length = 1 →
      loadLine load pyInt line = .ok (load (rstrip line))) ∧
    (∀ n, (pySplit (rstrip line)).length = 2 →
      pyInt ((pySplit (rstrip line)).getD 1 []) = some n →
      loadLine load pyInt line =
        .ok ((load ((pySplit (rstrip line)).getD 0 [])).map
          (fun s => { s with num_speakers := some n }))) ∧
    (3 ≤ (pySplit (rstrip line)).length →
      loadLine load pyInt line = .error .malformedManifest) ∧
    ((pySplit (rstrip line)).length = 0 →
      loadLine load pyInt line = .error .indexError) := by
  refine ⟨?_, ?_, ?_, ?_⟩
  · intro hlen
    cases htoks : pySplit (rstrip line) with
    | nil => rw [htoks] at hlen; simp at hlen
    | cons a as =>
        rw [htoks] at hlen
        simp only [loadLine, htoks, List.head?_cons, hlen]
        simp
  · intro n hlen hint
    cases htoks : pySplit (rstrip line) with
    | nil => rw [htoks] at hlen; simp at hlen
    | cons a as =>
        rw [htoks] at hlen hint
        simp only [loadLine, htoks, List.head?_cons, hlen, hint]
        simp
  · intro hlen
    cases htoks : pySplit (rstrip line) with
    | nil => rw [htoks] at hlen; simp at hlen
    | cons a as =>
        rw [htoks] at hlen
        have h1 : ¬((a :: as).length = 1) := by omega
        have h2 : ¬((a :: as).length = 2) := by omega
        simp only [loadLine, htoks, List.head?_cons, if_neg h1, if_neg h2]
  · intro hlen
    have htoks : pySplit (rstrip line) = [] := List.length_eq_zero.mp hlen
    simp only [loadLine, htoks, List.head?_nil]

/-- Loader stub for the manifest witnesses. -/
def loadW : List Char → Option IvecSet :=
  fun nm => some { name := nm, num_speakers := none, ivecs := [] }

/-- int() stub for the manifest witnesses. -/
def pyIntW : List Char → Option ℤ := fun t => if t = ['3'] then some 3 else none

/-- Witness for the amended C6 at the manifest line 'rec1 3'. -/
theorem load_line_c6_w :
    loadLine loadW pyIntW ("rec1 3".toList) =
      .ok (some { name := "rec1".toList, num_speakers := some 3, ivecs := [] }) := by
  have h := (load_line_c6 loadW pyIntW ("rec1 3".toList)).2.1 3 (by decide) (by decide)
  rw [h]
  rfl

/-! ### Claim C3 -/

/-- Claim C3: an embedding set of size 0 contributes no score-dict entry in
score (any binding at its key can only come from a non-empty set with the
same normalized name) and no RTTM file in dump_rttm (any file at its path
can only come from a non-empty set with the same path); in both passes a
warning naming the set is logged, and both loops continue through the
remaining sets — every non-empty set still receives its dict entry and its
output file. -/
theorem size_zero_skip_c3 (env : Env) (sets : List IvecSet)
    (scores d : List (List Char × Mat)) (outDir : List Char)
    (ws : List (List Char)) (sets₁ : List IvecSet)
    (files : List (List Char × List RttmLine)) (ws₁ : List (List Char))
    (hsc : score env sets = .ok (d, ws))
    (hdp : dump_rttm scores outDir sets = .ok (sets₁, files, ws₁))
    (s : IvecSet) (hs : s ∈ sets) (h0 : s.size = 0) :
    scoreWarn s.name ∈ ws ∧
    (∀ v, dictLookup d (normpath s.name) = some v →
      ∃ t ∈ sets, 0 < t.size ∧ normpath t.name = normpath s.name) ∧
    (∀ t ∈ sets, 0 < t.size → (dictLookup d (normpath t.name)).isSome) ∧
    dumpWarn s.name ∈ ws₁ ∧
    (∀ f ∈ files, f.1 = rttmPath outDir s.name →
      ∃ t ∈ sets, 0 < t.size ∧ rttmPath outDir t.name = rttmPath outDir s.name) ∧
    (∀ t ∈ sets, 0 < t.size → rttmPath outDir t.name ∈ files.map Prod.fst) := by
  obtain ⟨hkeys, hwm, hwarn⟩ := scoreLoop_spec env sets 0 [] [] d ws hsc
  obtain ⟨hfiles, hcover, hdwarn, hlen, hget⟩ :=
    dumpLoop_spec scores outDir sets sets₁ files ws₁ hdp
  refine ⟨hwarn s hs h0, ?_, ?_, hdwarn s hs h0, ?_, hcover⟩
  · intro v hv
    have hsome : (dictLookup d (normpath s.name)).isSome = true := by rw [hv]; rfl
    rcases (hkeys _).mp hsome with hl | hr
    · simp [dictLookup] at hl
    · exact hr
  · intro t ht htz
    exact (hkeys _).mpr (Or.inr ⟨t, ht, htz, rfl⟩)
  · intro f hf hfp
    obtain ⟨t, ht, h1, h2⟩ := hfiles f hf
    exact ⟨t, ht, h1, by rw [← h2, hfp]⟩

/-- Witness for C3 on a two-set list: one scored set, one empty set. -/
theorem size_zero_skip_c3_w :
    scoreWarn setEmptyW.name ∈ [scoreWarn setEmptyW.name] ∧
    (∀ v, dictLookup [(['a'], [[(1 : ℚ)]])] (normpath setEmptyW.name) = some v →
      ∃ t ∈ [setKnownW, setEmptyW], 0 < t.size ∧
        normpath t.name = normpath setEmptyW.name) ∧
    (∀ t ∈ [setKnownW, setEmptyW], 0 < t.size →
      (dictLookup [(['a'], [[(1 : ℚ)]])] (normpath t.name)).isSome) ∧
    dumpWarn setEmptyW.name ∈ [dumpWarn setEmptyW.name] ∧
    (∀ f ∈ [((rttmPath ['o'] ['a'], [(⟨['a'], 0, 1000, 0⟩ : RttmLine)]) :
        List Char × List RttmLine)], f.1 = rttmPath ['o'] setEmptyW.name →
      ∃ t ∈ [setKnownW, setEmptyW], 0 < t.size ∧
        rttmPath ['o'] t.name = rttmPath ['o'] setEmptyW.name) ∧
    (∀ t ∈ [setKnownW, setEmptyW], 0 < t.size →
      rttmPath ['o'] t.name ∈
        [((rttmPath ['o'] ['a'], [(⟨['a'], 0, 1000, 0⟩ : RttmLine)]) :
          List Char × List RttmLine)].map Prod.fst) :=
  size_zero_skip_c3 envW [setKnownW, setEmptyW] [(['a'], [[(1 : ℚ)]])]
    [(['a'], [[(1 : ℚ)]])] ['o'] [scoreWarn setEmptyW.name]
    [setKnownW, setEmptyW]
    [((rttmPath ['o'] ['a'], [(⟨['a'], 0, 1000, 0⟩ : RttmLine)]) :
      List Char × List RttmLine)]
    [dumpWarn setEmptyW.name] (by decide) (by decide) setEmptyW (by decide) (by decide)

/-! ### Round-trip properties of the '/'-split -/

lemma splitSlash_ne_nil (l : List Char) : splitSlash l ≠ [] := by
  cases l with
  | nil => simp [splitSlash]
  | cons c rest =>
      by_cases hc : c = '/'
      · simp [splitSlash, hc]
      · simp only [splitSlash, if_neg hc]
        cases splitSlash rest <;> simp

lemma splitSlash_no_slash (l : List Char) : ∀ x ∈ splitSlash l, '/' ∉ x := by
  induction l with
  | nil =>
      intro x hx
      simp [splitSlash] at hx
      simp [hx]
  | cons c rest ih =>
      intro x hx
      by_cases hc : c = '/'
      · simp only [splitSlash, if_pos hc] at hx
        rcases List.mem_cons.mp hx with rfl | hx₁
        · simp
        · exact ih x hx₁
      · simp only [splitSlash, if_neg hc] at hx
        cases hsp : splitSlash rest with
        | nil => exact absurd hsp (splitSlash_ne_nil rest)
        | cons h t =>
            rw [hsp] at hx
            rcases List.mem_cons.mp hx with rfl | hx₁
            · intro hmem
              rcases List.mem_cons.mp hmem with he | hmem₁
              · exact hc he.symm
              · exact ih h (by rw [hsp]; exact List.mem_cons_self h t) hmem₁
            · exact ih x (by rw [hsp]; exact List.mem_cons_of_mem h hx₁)

lemma splitSlash_of_no_slash (x : List Char) (hx : '/' ∉ x) : splitSlash x = [x] := by
  induction x with
  | nil => simp [splitSlash]
  | cons c rest ih =>
      have hc : ¬(c = '/') := fun he => hx (he ▸ List.mem_cons_self c rest)
      have hrest : '/' ∉ rest := fun hm => hx (List.mem_cons_of_mem c hm)
      simp only [splitSlash, if_neg hc, ih hrest]

lemma splitSlash_append_slash (x l : List Char) (hx : '/' ∉ x) :
    splitSlash (x ++ '/' :: l) = x :: splitSlash l := by
  induction x with
  | nil => simp [splitSlash]
  | cons c rest ih =>
      have hc : ¬(c = '/') := fun he => hx (he ▸ List.mem_cons_self c rest)
      have hrest : '/' ∉ rest := fun hm => hx (List.mem_cons_of_mem c hm)
      simp only [List.cons_append, splitSlash, if_neg hc, List.append_eq, ih hrest]

lemma splitSlash_join (comps : List (List Char)) (hne : comps ≠ [])
    (hs : ∀ x ∈ comps, '/' ∉ x) : splitSlash (joinSlash comps) = comps := by
  induction comps with
  | nil => exact absurd rfl hne
  | cons x rest ih =>
      cases rest with
      | nil =>
          exact splitSlash_of_no_slash x (hs x (List.mem_cons_self x []))
      | cons y t =>
          have hx : '/' ∉ x := hs x (List.mem_cons_self x (y :: t))
          have hrec : splitSlash (joinSlash (y :: t)) = y :: t :=
            ih (by simp) (fun z hz => hs z (List.mem_cons_of_mem x hz))
          calc splitSlash (joinSlash (x :: y :: t))
              = splitSlash (x ++ '/' :: joinSlash (y :: t)) := rfl
            _ = x :: splitSlash (joinSlash (y :: t)) := splitSlash_append_slash x _ hx
            _ = x :: y :: t := by rw [hrec]

lemma splitSlash_replicate (s : ℕ) (l : List Char) :
    splitSlash (List.replicate s '/' ++ l) = List.replicate s [] ++ splitSlash l := by
  induction s with
  | zero => simp
  | succ n ih =>
      simp only [List.replicate_succ, List.cons_append, splitSlash, if_pos rfl,
        List.append_eq, ih, if_true]

/-! ### Shape of the normpath component loop -/

/-- A component of a normalized path tail: nonempty, not '.', not '..'. -/
def goodComp (c : List Char) : Prop := c ≠ [] ∧ c ≠ ['.'] ∧ c ≠ dd

lemma normLoop_cons_skip (abs : Bool) (acc rest : List (List Char)) (comp : List Char)
    (h : comp = [] ∨ comp = ['.']) :
    normLoop abs acc (comp :: rest) = normLoop abs acc rest := by
  simp only [normLoop, if_pos h]

lemma normLoop_cons_push (abs : Bool) (acc rest : List (List Char)) (comp : List Char)
    (h1 : ¬(comp = [] ∨ comp = ['.']))
    (h2 : comp ≠ dd ∨ (abs = false ∧ acc = []) ∨ acc.head? = some dd) :
    normLoop abs acc (comp :: rest) = normLoop abs (comp :: acc) rest := by
  simp only [normLoop, if_neg h1, if_pos h2]

lemma normLoop_cons_pop (abs : Bool) (acc₁ rest : List (List Char)) (a comp : List Char)
    (h1 : ¬(comp = [] ∨ comp = ['.']))
    (h2 : ¬(comp ≠ dd ∨ (abs = false ∧ (a :: acc₁ : List (List Char)) = []) ∨
      (a :: acc₁ : List (List Char)).head? = some dd)) :
    normLoop abs (a :: acc₁) (comp :: rest) = normLoop abs acc₁ rest := by
  simp only [normLoop, if_neg h1, if_neg h2]

lemma normLoop_cons_drop (abs : Bool) (rest : List (List Char)) (comp : List Char)
    (h1 : ¬(comp = [] ∨ comp = ['.'])) (hc : comp = dd) (habs : abs = true) :
    normLoop abs [] (comp :: rest) = normLoop abs [] rest := by
  subst hc
  subst habs
  simp only [normLoop]
  rw [if_neg h1]
  split
  · rename_i hcond
    rcases hcond with h | ⟨h, -⟩ | h
    · exact absurd rfl h
    · exact absurd h (by simp)
    · exact absurd h (by simp)
  · rfl

/-- Members of the loop output come from the accumulator or the input. -/
lemma normLoop_mem (abs : Bool) :
    ∀ (comps acc : List (List Char)) (x : List Char),
      x ∈ normLoop abs acc comps → x ∈ acc ∨ x ∈ comps := by
  intro comps
  induction comps with
  | nil =>
      intro acc x hx
      simp only [normLoop] at hx
      exact Or.inl (List.mem_reverse.mp hx)
  | cons comp rest ih =>
      intro acc x hx
      by_cases h1 : comp = [] ∨ comp = ['.']
      · rw [normLoop_cons_skip abs acc rest comp h1] at hx
        rcases ih acc x hx with h | h
        · exact Or.inl h
        · exact Or.inr (List.mem_cons_of_mem comp h)
      · by_cases h2 : comp ≠ dd ∨ (abs = false ∧ acc = []) ∨ acc.head? = some dd
        · rw [normLoop_cons_push abs acc rest comp h1 h2] at hx
          rcases ih (comp :: acc) x hx with h | h
          · rcases List.mem_cons.mp h with rfl | h₃
            · exact Or.inr (List.mem_cons_self x rest)
            · exact Or.inl h₃
          · exact Or.inr (List.mem_cons_of_mem comp h)
        · cases acc with
          | nil =>
              have hc : comp = dd := by
                by_contra hcc
                exact h2 (Or.inl hcc)
              have habs : abs = true := by
                rcases Bool.eq_false_or_eq_true abs with ht | hf
                · exact ht
                · exact absurd (Or.inr (Or.inl ⟨hf, rfl⟩)) h2
              rw [normLoop_cons_drop abs rest comp h1 hc habs] at hx
              rcases ih [] x hx with h | h
              · exact Or.inl h
              · exact Or.inr (List.mem_cons_of_mem comp h)
          | cons a acc₁ =>
              rw [normLoop_cons_pop abs acc₁ rest a comp h1 h2] at hx
              rcases ih acc₁ x hx with h | h
              · exact Or.inl (List.mem_cons_of_mem a h)
              · exact Or.inr (List.mem_cons_of_mem comp h)

/-- On components that are all good the loop is an append. -/
lemma normLoop_all_good (abs : Bool) :
    ∀ (rest acc : List (List Char)), (∀ c ∈ rest, goodComp c) →
      normLoop abs acc rest = acc.reverse ++ rest := by
  intro rest
  induction rest with
  | nil =>
      intro acc _
      simp [normLoop]
  | cons comp t ih =>
      intro acc h
      obtain ⟨hne, hdot, hdd⟩ := h comp (List.mem_cons_self comp t)
      have h1 : ¬(comp = [] ∨ comp = ['.']) := by
        rintro (he | he)
        · exact hne he
        · exact hdot he
      rw [normLoop_cons_push abs acc t comp h1 (Or.inl hdd),
        ih (comp :: acc) (fun c hc => h c (List.mem_cons_of_mem comp hc))]
      simp

lemma dd_not_skip : ¬((dd : List Char) = [] ∨ (dd : List Char) = ['.']) := by decide

/-- Leading '..' components accumulate on a relative path. -/
lemma normLoop_dds :
    ∀ (m k : ℕ) (rest : List (List Char)),
      normLoop false (List.replicate k dd) (List.replicate m dd ++ rest) =
        normLoop false (List.replicate (k + m) dd) rest := by
  intro m
  induction m with
  | zero =>
      intro k rest
      simp
  | succ n ih =>
      intro k rest
      have h2 : (dd : List Char) ≠ dd ∨
          (false = false ∧ (List.replicate k dd : List (List Char)) = []) ∨
          (List.replicate k dd : List (List Char)).head? = some dd := by
        cases k with
        | zero => exact Or.inr (Or.inl ⟨rfl, rfl⟩)
        | succ k₁ => exact Or.inr (Or.inr (by simp [List.replicate_succ]))
      rw [List.replicate_succ, List.cons_append,
        normLoop_cons_push false _ _ dd dd_not_skip h2,
        show (dd :: List.replicate k dd : List (List Char)) = List.replicate (k + 1) dd from
          by rw [List.replicate_succ],
        ih (k + 1) rest,
        show k + 1 + n = k + (n + 1) from by omega]

/-- The loop output is a block of leading '..' components (none on an
absolute path) followed by good components. -/
lemma normLoop_shape (abs : Bool) :
    ∀ (comps acc good : List (List Char)) (m : ℕ),
      acc = good.reverse ++ List.replicate m dd →
      (∀ c ∈ good, goodComp c) → (abs = true → m = 0) →
      ∃ m₁ rest, normLoop abs acc comps = List.replicate m₁ dd ++ rest ∧
        (abs = true → m₁ = 0) ∧ (∀ c ∈ rest, goodComp c) := by
  intro comps
  induction comps with
  | nil =>
      intro acc good m hacc hg hm
      refine ⟨m, good, ?_, hm, hg⟩
      rw [hacc]
      simp only [normLoop, List.reverse_append, List.reverse_reverse, List.reverse_replicate]
  | cons comp t ih =>
      intro acc good m hacc hg hm
      by_cases h1 : comp = [] ∨ comp = ['.']
      · rw [normLoop_cons_skip abs acc t comp h1]
        exact ih acc good m hacc hg hm
      · by_cases hdd : comp = dd
        · subst hdd
          cases acc with
          | nil =>
              have hgood : good = [] ∧ m = 0 := by
                rcases List.eq_nil_or_concat good with rfl | ⟨gs, x, rfl⟩
                · cases m with
                  | zero => exact ⟨rfl, rfl⟩
                  | succ m₁ => simp [List.replicate_succ] at hacc
                · simp at hacc
              obtain ⟨rfl, rfl⟩ := hgood
              rcases Bool.eq_false_or_eq_true abs with habs | habs
              · rw [normLoop_cons_drop abs t dd (by exact dd_not_skip) rfl habs]
                exact ih [] [] 0 rfl (by simp) (fun _ => rfl)
              · rw [normLoop_cons_push abs [] t dd
                  (by exact dd_not_skip) (Or.inr (Or.inl ⟨habs, rfl⟩))]
                refine ih [dd] [] 1 rfl (by simp) ?_
                intro ht
                rw [ht] at habs
                exact absurd habs (by decide)
          | cons a acc₁ =>
              rcases List.eq_nil_or_concat good with rfl | ⟨gs, x, rfl⟩
              · -- the accumulator is a nonempty block of '..'
                have hm₁ : ∃ m₁, m = m₁ + 1 := by
                  cases m with
                  | zero => simp at hacc
                  | succ m₁ => exact ⟨m₁, rfl⟩
                obtain ⟨m₁, rfl⟩ := hm₁
                have habs : abs = false := by
                  rcases Bool.eq_false_or_eq_true abs with ht | hf
                  · exact absurd (hm ht) (by omega)
                  · exact hf
                simp only [List.reverse_nil, List.nil_append, List.replicate_succ,
                  List.cons.injEq] at hacc
                obtain ⟨rfl, rfl⟩ := hacc
                rw [normLoop_cons_push abs _ t dd (by exact dd_not_skip)
                  (Or.inr (Or.inr (by simp)))]
                refine ih _ [] (m₁ + 1 + 1) ?_ (by simp) ?_
                · simp [List.replicate_succ]
                · intro ht
                  rw [ht] at habs
                  exact absurd habs (by decide)
              · -- the accumulator ends (at its head) with a good component
                rw [List.concat_eq_append] at hg hacc
                have hx : goodComp x := hg x (by simp)
                simp only [List.reverse_append, List.reverse_cons, List.reverse_nil,
                  List.nil_append, List.cons_append, List.cons.injEq] at hacc
                obtain ⟨rfl, rfl⟩ := hacc
                rw [normLoop_cons_pop abs _ t a dd (by exact dd_not_skip) ?hcond]
                case hcond =>
                  rintro (hc | ⟨-, hc⟩ | hc)
                  · exact hc rfl
                  · exact absurd hc (by simp)
                  · simp only [List.head?_cons, Option.some_inj] at hc
                    exact hx.2.2 hc
                exact ih _ gs m rfl (fun c hc => hg c (List.mem_append_left _ hc)) hm
        · -- a good component is pushed
          have hcomp : goodComp comp := by
            refine ⟨fun he => h1 (Or.inl he), fun he => h1 (Or.inr he), hdd⟩
          rw [normLoop_cons_push abs acc t comp h1 (Or.inl hdd)]
          refine ih _ (good ++ [comp]) m ?_ ?_ hm
          · rw [hacc]
            simp
          · intro c hc
            rcases List.mem_append.mp hc with hc₁ | hc₁
            · exact hg c hc₁
            · rw [List.mem_singleton.mp hc₁]
              exact hcomp

/-- The loop is the identity on an already normalized component list. -/
lemma normLoop_id (abs : Bool) (m : ℕ) (rest : List (List Char))
    (hm : abs = true → m = 0) (hg : ∀ c ∈ rest, goodComp c) :
    normLoop abs [] (List.replicate m dd ++ rest) = List.replicate m dd ++ rest := by
  cases habs : abs with
  | true =>
      rw [hm habs]
      simpa using normLoop_all_good true rest [] hg
  | false =>
      have h0 : ([] : List (List Char)) = List.replicate 0 dd := rfl
      rw [h0, normLoop_dds m 0 rest, Nat.zero_add,
        normLoop_all_good false rest (List.replicate m dd) hg,
        List.reverse_replicate]

lemma normLoop_skip_empties (abs : Bool) (acc : List (List Char)) :
    ∀ (k : ℕ) (l : List (List Char)),
      normLoop abs acc (List.replicate k [] ++ l) = normLoop abs acc l := by
  intro k
  induction k with
  | zero =>
      intro l
      simp
  | succ n ih =>
      intro l
      rw [List.replicate_succ, List.cons_append,
        normLoop_cons_skip abs acc _ [] (Or.inl rfl), ih]

lemma joinSlash_cons_ne (x : List Char) (xs : List (List Char)) (hx : x ≠ []) :
    ∃ c t, joinSlash (x :: xs) = c :: t ∧ c ∈ x := by
  cases x with
  | nil => exact absurd rfl hx
  | cons c cs =>
      cases xs with
      | nil => exact ⟨c, cs, rfl, List.mem_cons_self c cs⟩
      | cons y ys => exact ⟨c, cs ++ '/' :: joinSlash (y :: ys), rfl, List.mem_cons_self c cs⟩

lemma islashes_cases (p : List Char) : islashes p = 0 ∨ islashes p = 1 ∨ islashes p = 2 := by
  unfold islashes
  split
  · split
    · exact Or.inr (Or.inr rfl)
    · exact Or.inr (Or.inl rfl)
  · exact Or.inl rfl

lemma islashes_prepend (s : ℕ) (hs : s = 0 ∨ s = 1 ∨ s = 2) (c : Char) (hc : c ≠ '/')
    (t : List Char) :
    islashes (List.replicate s '/' ++ c :: t) = s := by
  rcases hs with rfl | rfl | rfl
  · simp only [List.replicate, List.nil_append, islashes]
    rw [if_neg]
    simp only [List.take_succ_cons, List.take_zero, List.cons.injEq, and_true]
    exact hc
  · simp only [List.replicate_succ, List.replicate, List.cons_append, List.nil_append, islashes]
    rw [if_pos (by simp), if_neg]
    rintro ⟨h2, -⟩
    simp only [List.take_succ_cons, List.take_zero, List.cons.injEq, and_true] at h2
    exact hc h2.2
  · simp only [List.replicate_succ, List.replicate, List.cons_append, List.nil_append, islashes]
    rw [if_pos (by simp), if_pos]
    constructor
    · simp
    · simp only [List.take_succ_cons, List.take_zero, ne_eq, List.cons.injEq, true_and, and_true]
      intro h
      exact hc h

/-- posixpath.normpath is idempotent. -/
lemma normpath_idem (p : List Char) : normpath (normpath p) = normpath p := by
  by_cases hp : p = []
  · subst hp
    decide
  · obtain ⟨m, rest, hcv, hm, hrest⟩ :=
      normLoop_shape (islashes p != 0) (splitSlash p) [] [] 0 rfl
        (fun c hc => absurd hc (List.not_mem_nil c)) (fun _ => rfl)
    have hsl : ∀ x ∈ List.replicate m dd ++ rest, '/' ∉ x := by
      intro x hx
      have hx₁ : x ∈ normLoop (islashes p != 0) [] (splitSlash p) := by
        rw [hcv]; exact hx
      rcases normLoop_mem (islashes p != 0) (splitSlash p) [] x hx₁ with h | h
      · exact absurd h (List.not_mem_nil x)
      · exact splitSlash_no_slash p x h
    have hne : ∀ x ∈ List.replicate m dd ++ rest, x ≠ [] := by
      intro x hx
      rcases List.mem_append.mp hx with h | h
      · rw [List.eq_of_mem_replicate h]; decide
      · exact (hrest x h).1
    have hout : normpath p =
        (if List.replicate (islashes p) '/' ++ joinSlash (List.replicate m dd ++ rest) = []
         then ['.']
         else List.replicate (islashes p) '/' ++ joinSlash (List.replicate m dd ++ rest)) := by
      simp only [normpath, if_neg hp, hcv]
    by_cases hz : List.replicate (islashes p) '/' ++ joinSlash (List.replicate m dd ++ rest) = []
    · rw [hout, if_pos hz]
      decide
    · rw [hout, if_neg hz]
      by_cases hM : (List.replicate m dd ++ rest : List (List Char)) = []
      · -- no components survive: the path is a pure slash prefix
        rw [hM] at hz ⊢
        have hs0 : islashes p ≠ 0 := by
          intro h0
          rw [h0] at hz
          exact hz rfl
        rcases islashes_cases p with h | h | h
        · exact absurd h hs0
        · rw [h]
          decide
        · rw [h]
          decide
      · -- at least one component: the body starts with a non-slash character
        have hM₁ : ∃ x xs, (List.replicate m dd ++ rest : List (List Char)) = x :: xs := by
          cases hMc : (List.replicate m dd ++ rest : List (List Char)) with
          | nil => exact absurd hMc hM
          | cons x xs => exact ⟨x, xs, rfl⟩
        obtain ⟨x, xs, hMc⟩ := hM₁
        have hxne : x ≠ [] := hne x (by rw [hMc]; exact List.mem_cons_self x xs)
        obtain ⟨c, t, hjoin, hcx⟩ := joinSlash_cons_ne x xs hxne
        have hcs : c ≠ '/' := by
          intro hceq
          exact hsl x (by rw [hMc]; exact List.mem_cons_self x xs) (hceq ▸ hcx)
        rw [hMc, hjoin]
        have hQs : islashes (List.replicate (islashes p) '/' ++ c :: t) = islashes p :=
          islashes_prepend (islashes p) (islashes_cases p) c hcs t
        have hQne : (List.replicate (islashes p) '/' ++ c :: t : List Char) ≠ [] := by
          simp
        simp only [normpath, if_neg hQne, hQs]
        have hsplit : splitSlash (List.replicate (islashes p) '/' ++ c :: t) =
            List.replicate (islashes p) [] ++ (List.replicate m dd ++ rest) := by
          rw [splitSlash_replicate, ← hjoin, ← hMc,
            splitSlash_join _ (by rw [hMc]; simp) hsl]
        rw [hsplit, normLoop_skip_empties, normLoop_id _ m rest hm hrest, hMc, hjoin,
          if_neg hQne]

/-! ### Claim C8 -/

/-- Claim C8: score stores each non-empty set's matrix under
os.path.normpath(name) while dump_rttm looks the matrix up under the raw
name attribute (the key `name` captured at dump_rttm line 130 before the
beamformed rewrite, i.e. dictLookup scores s.name in dumpLoop).  For a set
list on which score completed, that lookup succeeds exactly when the set's
name is a fixed point of path normalization: every key is a normpath image
and normpath is idempotent, so a non-fixed-point name can match no key,
while a fixed-point name equals the key stored for the set itself. -/
theorem score_key_fixpoint_c8 (env : Env) (sets : List IvecSet)
    (d : List (List Char × Mat)) (ws : List (List Char))
    (hsc : score env sets = .ok (d, ws)) (s : IvecSet) (hs : s ∈ sets)
    (hsz : 0 < s.size) :
    (dictLookup d s.name).isSome ↔ normpath s.name = s.name := by
  rw [score_keys env sets d ws hsc s.name]
  constructor
  · rintro ⟨t, ht, htz, hkey⟩
    rw [← hkey, normpath_idem]
  · intro hfix
    exact ⟨s, hs, hsz, hfix⟩

/-- Witness for C8. -/
theorem score_key_fixpoint_c8_w :
    (dictLookup [(['a'], [[(1 : ℚ)]])] setKnownW.name).isSome ↔
      normpath setKnownW.name = setKnownW.name :=
  score_key_fixpoint_c8 envW [setKnownW] [(['a'], [[(1 : ℚ)]])] [] (by decide)
    setKnownW (by decide) (by decide)

end VBDiar
